import Mathlib

/-!
Verification of the version-source-of-truth subsystem of the scaffold
repository: `scripts/version-helper.py`, `scripts/sync-versions.py` and
`scripts/verify-tool-versions.py`, embedded shallowly.

File text is modelled as `List Char`.  The scripts use a small fragment of
Python regular expressions (literals, the classes `[0-9]`, `\s`, `[^\s]`,
`.`, positive/negative quote classes, the quantifiers `?`, `*`, `+`, and a
single capturing group); that fragment is embedded below with Python's
backtracking (greedy, leftmost) semantics, together with `re.sub` (with a
replacement function) and `re.findall`.
-/

/-- File text: a list of characters (byte-for-byte content). -/
abbrev Str := List Char

/-- Python `\s` for the ASCII whitespace characters. -/
def isWsChar (c : Char) : Bool :=
  c = ' ' || c = '\t' || c = '\n' || c = '\r' || c = '\x0b' || c = '\x0c'

/-- Character classes occurring in the scripts' patterns. -/
inductive CharClass where
  | digit : CharClass
  | ws : CharClass
  | notWs : CharClass
  | dot : CharClass
  | oneOf : List Char → CharClass
  | noneOf : List Char → CharClass
deriving DecidableEq, Repr

/-- Whether a character belongs to a class (Python semantics: `.` excludes
newline, a negated class includes newline). -/
def clsMatch : CharClass → Char → Bool
  | .digit, c => '0' ≤ c && c ≤ '9'
  | .ws, c => isWsChar c
  | .notWs, c => !isWsChar c
  | .dot, c => c ≠ '\n'
  | .oneOf l, c => l.contains c
  | .noneOf l, c => !l.contains c

/-- One pattern element: a literal character or a quantified class. -/
inductive Item where
  | lit : Char → Item
  | once : CharClass → Item
  | opt : CharClass → Item
  | star : CharClass → Item
  | plus : CharClass → Item
deriving DecidableEq, Repr

/-- All ways a maximal-run quantifier can split a string, greedy first:
`(consumed, rest)` pairs with `consumed` ranging from the longest prefix of
characters in the class down to the empty prefix. -/
def runSplits (cls : CharClass) : Str → List (Str × Str)
  | [] => [([], [])]
  | c :: rest =>
    if clsMatch cls c then
      (runSplits cls rest).map (fun p => (c :: p.1, p.2)) ++ [([], c :: rest)]
    else
      [([], c :: rest)]

/-- The candidate `(consumed, rest)` splits of one item against a string, in
Python's backtracking priority order (greedy first for `?`, `*`, `+`). -/
def itemSplits : Item → Str → List (Str × Str)
  | .lit _, [] => []
  | .lit a, c :: rest => if c = a then [([c], rest)] else []
  | .once _, [] => []
  | .once cls, c :: rest => if clsMatch cls c then [([c], rest)] else []
  | .opt _, [] => [([], [])]
  | .opt cls, c :: rest =>
    if clsMatch cls c then [([c], rest), ([], c :: rest)] else [([], c :: rest)]
  | .star cls, s => runSplits cls s
  | .plus cls, s => (runSplits cls s).dropLast

/-- A pattern: items tagged with whether they lie inside the (unique)
capturing group. -/
abbrev RePat := List (Item × Bool)

/-- First success of `f` over a list, in order (backtracking search). -/
def firstSome {α β : Type} : List α → (α → Option β) → Option β
  | [], _ => none
  | x :: xs, f =>
    match f x with
    | some r => some r
    | none => firstSome xs f

/-- Backtracking match of a pattern at the start of `s`: returns
`(whole, capture, rest)` for the leftmost-greedy successful assignment, like
a Python match object anchored at the current position. -/
def tryMatchT : RePat → Str → Option (Str × Str × Str)
  | [], s => some ([], [], s)
  | (it, g) :: items, s =>
    firstSome (itemSplits it s) fun p =>
      (tryMatchT items p.2).map fun r =>
        (p.1 ++ r.1, (if g then p.1 else []) ++ r.2.1, r.2.2)

/-- Leftmost match search (Python `re` scanning): returns
`(before, whole, capture, rest)` for the first position where the pattern
matches. -/
def reFind (p : RePat) : Str → Option (Str × Str × Str × Str)
  | [] => (tryMatchT p []).map fun r => ([], r.1, r.2.1, r.2.2)
  | c :: rest =>
    match tryMatchT p (c :: rest) with
    | some r => some ([], r.1, r.2.1, r.2.2)
    | none => (reFind p rest).map fun q => (c :: q.1, q.2)

/-- Captures of all non-overlapping matches, scanning left to right
(Python `re.findall` for a single-group pattern); fuelled, one unit of fuel
per match. -/
def findAllGo (p : RePat) : Nat → Str → List Str
  | 0, _ => []
  | fuel + 1, s =>
    match reFind p s with
    | none => []
    | some (_, w, cap, rest) =>
      if w.isEmpty then
        match rest with
        | [] => [cap]
        | _ :: tail => cap :: findAllGo p fuel tail
      else
        cap :: findAllGo p fuel rest

/-- Substitution of all non-overlapping matches by a replacement function
receiving `(whole, capture)` and returning the replacement text plus an
optional record (Python `re.sub` with a function, which the syncer uses to
accumulate change records); fuelled like `findAllGo`. -/
def reSubGo {ρ : Type} (p : RePat) (f : Str → Str → Str × Option ρ) :
    Nat → Str → Str × List ρ
  | 0, s => (s, [])
  | fuel + 1, s =>
    match reFind p s with
    | none => (s, [])
    | some (b, w, cap, rest) =>
      let fr := f w cap
      if w.isEmpty then
        match rest with
        | [] => (b ++ fr.1, fr.2.toList)
        | c :: tail =>
          let r := reSubGo p f fuel tail
          (b ++ fr.1 ++ c :: r.1, fr.2.toList ++ r.2)
      else
        let r := reSubGo p f fuel rest
        (b ++ fr.1 ++ r.1, fr.2.toList ++ r.2)

/-- `re.findall` (a string has at most `length + 1` match positions). -/
def reFindAll (p : RePat) (s : Str) : List Str :=
  findAllGo p (s.length + 1) s

/-- `re.sub` with a record-producing replacement function. -/
def reSub {ρ : Type} (p : RePat) (f : Str → Str → Str × Option ρ) (s : Str) :
    Str × List ρ :=
  reSubGo p f (s.length + 1) s

/-- Literal run of pattern items (outside the group). -/
def litStr (s : String) : RePat := s.toList.map fun c => (Item.lit c, false)

/-- Items wrapped in the capturing group. -/
def grp (items : List Item) : RePat := items.map fun it => (it, true)

/-- The two quote characters of the workflow patterns. -/
def quoteChars : List Char := ['\'', '"']

example :
    tryMatchT (litStr "go" ++ [(.plus .ws, false)] ++
        grp [.plus .digit, .lit '.', .plus .digit]) "go 1.21.3".toList =
      some ("go 1.21".toList, "1.21".toList, ".3".toList) := by decide

theorem firstSome_eq_some {α β : Type} {l : List α} {f : α → Option β} {r : β}
    (h : firstSome l f = some r) : ∃ x ∈ l, f x = some r := by
  induction l with
  | nil => simp [firstSome] at h
  | cons x xs ih =>
    simp only [firstSome] at h
    cases hfx : f x with
    | some r2 =>
      rw [hfx] at h
      refine ⟨x, by simp, ?_⟩
      rw [hfx]
      exact h
    | none =>
      rw [hfx] at h
      obtain ⟨y, hy, hfy⟩ := ih h
      exact ⟨y, by simp [hy], hfy⟩

theorem runSplits_append {cls : CharClass} :
    ∀ {s : Str} {q : Str × Str}, q ∈ runSplits cls s → q.1 ++ q.2 = s := by
  intro s
  induction s with
  | nil =>
    intro q h
    simp only [runSplits, List.mem_singleton] at h
    simp [h]
  | cons c rest ih =>
    intro q h
    simp only [runSplits] at h
    by_cases hc : clsMatch cls c
    · rw [if_pos hc] at h
      rcases List.mem_append.mp h with h1 | h1
      · obtain ⟨q0, hq0, rfl⟩ := List.mem_map.mp h1
        simpa using ih hq0
      · simp only [List.mem_singleton] at h1
        simp [h1]
    · rw [if_neg hc] at h
      simp only [List.mem_singleton] at h
      simp [h]

theorem itemSplits_append {it : Item} :
    ∀ {s : Str} {q : Str × Str}, q ∈ itemSplits it s → q.1 ++ q.2 = s := by
  intro s q h
  cases it with
  | lit a =>
    cases s with
    | nil => simp [itemSplits] at h
    | cons c rest =>
      simp only [itemSplits] at h
      by_cases hc : c = a
      · rw [if_pos hc] at h
        simp only [List.mem_singleton] at h
        simp [h]
      · rw [if_neg hc] at h
        simp at h
  | once cls =>
    cases s with
    | nil => simp [itemSplits] at h
    | cons c rest =>
      simp only [itemSplits] at h
      by_cases hc : clsMatch cls c
      · rw [if_pos hc] at h
        simp only [List.mem_singleton] at h
        simp [h]
      · rw [if_neg hc] at h
        simp at h
  | opt cls =>
    cases s with
    | nil =>
      simp only [itemSplits, List.mem_singleton] at h
      simp [h]
    | cons c rest =>
      simp only [itemSplits] at h
      by_cases hc : clsMatch cls c
      · rw [if_pos hc] at h
        simp only [List.mem_cons, List.mem_singleton, List.not_mem_nil, or_false] at h
        rcases h with h | h <;> simp [h]
      · rw [if_neg hc] at h
        simp only [List.mem_singleton] at h
        simp [h]
  | star cls => exact runSplits_append h
  | plus cls => exact runSplits_append (List.dropLast_subset _ h)

theorem tryMatchT_append :
    ∀ {p : RePat} {s w cap rest : Str},
      tryMatchT p s = some (w, cap, rest) → w ++ rest = s := by
  intro p
  induction p with
  | nil =>
    intro s w cap rest h
    simp only [tryMatchT, Option.some.injEq, Prod.mk.injEq] at h
    obtain ⟨h1, _, h3⟩ := h
    simp [← h1, ← h3]
  | cons itg items ih =>
    intro s w cap rest h
    simp only [tryMatchT] at h
    obtain ⟨sp, hsp, hfx⟩ := firstSome_eq_some h
    rcases hr : tryMatchT items sp.2 with _ | r0
    · rw [hr] at hfx; simp at hfx
    · rw [hr] at hfx
      simp only [Option.map_some', Option.some.injEq, Prod.mk.injEq] at hfx
      obtain ⟨h1, _, h3⟩ := hfx
      have hrec : r0.1 ++ r0.2.2 = sp.2 := by
        have h9 : tryMatchT items sp.2 = some (r0.1, r0.2.1, r0.2.2) := by
          simpa using hr
        exact ih h9
      have hspl : sp.1 ++ sp.2 = s := itemSplits_append hsp
      rw [← h1, ← h3, List.append_assoc, hrec, hspl]

theorem reFind_append {p : RePat} :
    ∀ {s b w cap rest : Str},
      reFind p s = some (b, w, cap, rest) → b ++ w ++ rest = s := by
  intro s
  induction s with
  | nil =>
    intro b w cap rest h
    simp only [reFind] at h
    rcases ht : tryMatchT p [] with _ | r
    · rw [ht] at h; simp at h
    · rw [ht] at h
      simp only [Option.map_some', Option.some.injEq, Prod.mk.injEq] at h
      obtain ⟨hb, hw, _, hrest⟩ := h
      have h9 : tryMatchT p [] = some (r.1, r.2.1, r.2.2) := by simpa using ht
      have h5 := tryMatchT_append h9
      simp [← hb, ← hw, ← hrest, h5]
  | cons c tail ih =>
    intro b w cap rest h
    simp only [reFind] at h
    rcases ht : tryMatchT p (c :: tail) with _ | r
    · rw [ht] at h
      simp only at h
      rcases hq : reFind p tail with _ | q
      · rw [hq] at h; simp at h
      · rw [hq] at h
        simp only [Option.map_some', Option.some.injEq] at h
        have hqeq : q.1 ++ q.2.1 ++ q.2.2.2 = tail := by
          have h9 : reFind p tail = some (q.1, q.2.1, q.2.2.1, q.2.2.2) := by
            simpa using hq
          exact ih h9
        simp only [Prod.mk.injEq] at h
        obtain ⟨hb, hq2⟩ := h
        rw [hq2] at hqeq
        simp only at hqeq
        rw [← hb]
        simpa using congrArg (fun t => c :: t) hqeq
    · rw [ht] at h
      simp only [Option.some.injEq, Prod.mk.injEq] at h
      obtain ⟨hb, hw, _, hrest⟩ := h
      have h9 : tryMatchT p (c :: tail) = some (r.1, r.2.1, r.2.2) := by simpa using ht
      have h5 := tryMatchT_append h9
      simp [← hb, ← hw, ← hrest, h5]

/-!
Embedding of `sync-versions.py` (`VersionSyncer`).  The registry lookup
`get_version` is passed in as a function `String → Option Str` (the value
`version_helper.get_version` returns for a dotted key); the file system is
an association list from path to content.
-/

/-- One entry of `changes_in_file` in `VersionSyncer._sync_file`: the
version key, the captured old version and the expected new version
(`None` when the registry key is absent, as in the Python dict). -/
structure Change where
  versionKey : String
  oldVersion : Str
  newVersion : Option Str
deriving DecidableEq, Repr

/-- One sync rule of `VersionSyncer.sync_rules`: pattern, registry key and
replacement renderer (the Python lambda producing the full replacement
text from the new version). -/
structure Rule where
  pattern : RePat
  versionKey : String
  replacement : Str → Str

/-- Python `old_version != expected_version` where `expected_version` may be
`None` (a string never equals `None`). -/
def pyStrNeqOpt (cap : Str) : Option Str → Bool
  | some v => cap ≠ v
  | none => true

/-- Python f-string interpolation of an optional value (`None` prints as
the four characters `None`). -/
def pyInterp : Option Str → Str
  | some v => v
  | none => "None".toList

/-- The `replace_match` closure of `VersionSyncer._sync_file`: on a match,
if the captured group differs from the expected version, record a change
and return the rendered replacement; otherwise return the whole match. -/
def replaceMatch (rule : Rule) (expected : Option Str) (w cap : Str) :
    Str × Option Change :=
  if pyStrNeqOpt cap expected then
    (rule.replacement (pyInterp expected), some ⟨rule.versionKey, cap, expected⟩)
  else
    (w, none)

/-- The per-rule loop body of `VersionSyncer._sync_file`: each rule's
pattern is substituted over the current content, accumulating the change
records in order. -/
def syncFileRules (getv : String → Option Str) (rules : List Rule)
    (content : Str) : Str × List Change :=
  rules.foldl
    (fun acc rule =>
      let r := reSub rule.pattern (replaceMatch rule (getv rule.versionKey)) acc.1
      (r.1, acc.2 ++ r.2))
    (content, [])

/-- File system: association list from path to byte content. -/
abbrev FileSys := List (String × Str)

/-- Read a file (first entry wins, like a real file system). -/
def fsRead : FileSys → String → Option Str
  | [], _ => none
  | (q, c) :: rest, p => if q = p then some c else fsRead rest p

/-- Overwrite an existing file's content. -/
def fsWrite (fs : FileSys) (p : String) (c : Str) : FileSys :=
  fs.map fun e => if e.1 = p then (p, c) else e

/-- `VersionSyncer._write_file`: in dry-run mode the write is suppressed. -/
def writeFile (dryRun : Bool) (fs : FileSys) (p : String) (c : Str) : FileSys :=
  if dryRun then fs else fsWrite fs p c

/-- One entry of `VersionSyncer.changes_made`: a file together with the
change records produced for it. -/
structure FileChanges where
  file : String
  changes : List Change
deriving DecidableEq, Repr

/-- `VersionSyncer._sync_file` for one table entry: a missing file is
skipped with a warning; otherwise all rules are applied and, when any
change record was produced, the file is written (unless dry-run) and the
records are appended to `changes_made`. -/
def syncOneFile (dryRun : Bool) (getv : String → Option Str) (fs : FileSys)
    (entry : String × List Rule) : FileSys × List FileChanges :=
  match fsRead fs entry.1 with
  | none => (fs, [])
  | some content =>
    let r := syncFileRules getv entry.2 content
    if r.2.isEmpty then (fs, [])
    else (writeFile dryRun fs entry.1 r.1, [⟨entry.1, r.2⟩])

/-- `VersionSyncer.sync_all_files`: process the rule table in order,
threading the file system and collecting `changes_made`. -/
def syncAllFiles (dryRun : Bool) (getv : String → Option Str) :
    List (String × List Rule) → FileSys → FileSys × List FileChanges
  | [], fs => (fs, [])
  | entry :: rest, fs =>
    let r := syncOneFile dryRun getv fs entry
    let r2 := syncAllFiles dryRun getv rest r.1
    (r2.1, r.2 ++ r2.2)

/-- One entry of the `inconsistencies` list of
`VersionSyncer.check_consistency`. -/
structure Inconsistency where
  file : String
  versionKey : String
  foundVersion : Str
  expectedVersion : Option Str
deriving DecidableEq, Repr

/-- The per-rule loop of `check_consistency` for one file: every capture
of `re.findall` differing from the expected version is reported. -/
def checkFileRules (getv : String → Option Str) (file : String)
    (rules : List Rule) (content : Str) : List Inconsistency :=
  rules.foldl
    (fun acc rule =>
      let e := getv rule.versionKey
      acc ++ (reFindAll rule.pattern content).filterMap fun cap =>
        if pyStrNeqOpt cap e then some ⟨file, rule.versionKey, cap, e⟩ else none)
    []

/-- `VersionSyncer.check_consistency`: scan every configured file (missing
files are skipped) and collect all inconsistencies; the command exits zero
iff the list is empty. -/
def checkConsistency (getv : String → Option Str) :
    List (String × List Rule) → FileSys → List Inconsistency
  | [], _ => []
  | entry :: rest, fs =>
    (match fsRead fs entry.1 with
     | none => []
     | some content => checkFileRules getv entry.1 entry.2 content) ++
      checkConsistency getv rest fs

/-!
The concrete `sync_rules` table of `VersionSyncer.__init__`.
-/

/-- Pattern of `go-version:\s*['"]?([^'"]+)['"]?`. -/
def goVersionPat : RePat :=
  litStr "go-version:" ++
    [(.star .ws, false), (.opt (.oneOf quoteChars), false),
      (.plus (.noneOf quoteChars), true), (.opt (.oneOf quoteChars), false)]

/-- Pattern of `golangci-lint-version:\s*['"]?([^'"]+)['"]?`. -/
def golangciLintVersionPat : RePat :=
  litStr "golangci-lint-version:" ++
    [(.star .ws, false), (.opt (.oneOf quoteChars), false),
      (.plus (.noneOf quoteChars), true), (.opt (.oneOf quoteChars), false)]

/-- Pattern of `GO_VERSION:\s*['"]?([^'"]+)['"]?`. -/
def goEnvVersionPat : RePat :=
  litStr "GO_VERSION:" ++
    [(.star .ws, false), (.opt (.oneOf quoteChars), false),
      (.plus (.noneOf quoteChars), true), (.opt (.oneOf quoteChars), false)]

/-- Pattern of `FROM\s+golang:([^\s]+)`. -/
def dockerfileGoPat : RePat :=
  litStr "FROM" ++ [(.plus .ws, false)] ++ litStr "golang:" ++ grp [.plus .notWs]

/-- Pattern of `go\s+([0-9]+\.[0-9]+)` (the `go.mod` directive rule). -/
def goModPat : RePat :=
  litStr "go" ++ [(.plus .ws, false)] ++ grp [.plus .digit, .lit '.', .plus .digit]

/-- Pattern of `GOLANGCI_LINT_VERSION="([^"]+)"`. -/
def installToolsPat : RePat :=
  litStr "GOLANGCI_LINT_VERSION=\"" ++ grp [.plus (.noneOf ['"'])] ++ litStr "\""

/-- The `go-version` rule bound to `languages.go` (CI workflows). -/
def goVersionRule : Rule :=
  ⟨goVersionPat, "languages.go", fun v => "go-version: '".toList ++ v ++ ['\'']⟩

/-- The `golangci-lint-version` rule bound to `tools.golangci-lint`. -/
def golangciLintVersionRule : Rule :=
  ⟨golangciLintVersionPat, "tools.golangci-lint",
    fun v => "golangci-lint-version: '".toList ++ v ++ ['\'']⟩

/-- The `GO_VERSION` environment rule bound to `languages.go`. -/
def goEnvVersionRule : Rule :=
  ⟨goEnvVersionPat, "languages.go", fun v => "GO_VERSION: '".toList ++ v ++ ['\'']⟩

/-- The Dockerfile base-image rule bound to `languages.go`. -/
def dockerfileGoRule : Rule :=
  ⟨dockerfileGoPat, "languages.go", fun v => "FROM golang:".toList ++ v⟩

/-- The `go.mod` directive rule bound to `languages.go`: renders `go {v}`
although its pattern captures only a `major.minor` prefix. -/
def goModRule : Rule :=
  ⟨goModPat, "languages.go", fun v => "go ".toList ++ v⟩

/-- The install-script rule bound to `tools.golangci-lint`. -/
def installToolsRule : Rule :=
  ⟨installToolsPat, "tools.golangci-lint",
    fun v => "GOLANGCI_LINT_VERSION=\"".toList ++ v ++ ['"']⟩

/-- The full `sync_rules` table of `VersionSyncer.__init__`. -/
def syncRulesTable : List (String × List Rule) :=
  [(".github/workflows/ci.yml", [goVersionRule, golangciLintVersionRule]),
   (".github/workflows/docker.yml", [goEnvVersionRule]),
   (".github/workflows/codeql.yml", [goVersionRule]),
   (".github/workflows/dependencies.yml", [goVersionRule]),
   (".github/workflows/release.yml", [goVersionRule]),
   ("Dockerfile", [dockerfileGoRule]),
   ("go.mod", [goModRule]),
   ("scripts/install-tools.sh", [installToolsRule])]

/-!
Idempotence analysis for the Reconciler.
-/

/-- A single rule is in sync with a file content: every `findall` capture
of its pattern equals the registry's expected value. -/
def ruleSyncedB (getv : String → Option Str) (rule : Rule) (content : Str) : Bool :=
  (reFindAll rule.pattern content).all fun cap => !pyStrNeqOpt cap (getv rule.versionKey)

/-- All rules for a file are in sync with its content. -/
def fileSyncedB (getv : String → Option Str) (rules : List Rule) (content : Str) : Bool :=
  rules.all fun r => ruleSyncedB getv r content

/-- The whole rule table is in sync with a file system (missing files are
vacuously in sync, matching the Reconciler's skip). -/
def syncedB (getv : String → Option Str) (table : List (String × List Rule))
    (fs : FileSys) : Bool :=
  table.all fun entry =>
    match fsRead fs entry.1 with
    | none => true
    | some content => fileSyncedB getv entry.2 content

theorem reSubGo_id_of_all_eq {rule : Rule} {e : Option Str} :
    ∀ {fuel : Nat} {s : Str},
      (∀ cap ∈ findAllGo rule.pattern fuel s, pyStrNeqOpt cap e = false) →
      reSubGo rule.pattern (replaceMatch rule e) fuel s = (s, []) := by
  intro fuel
  induction fuel with
  | zero => intro s _; simp [reSubGo]
  | succ fuel ih =>
    intro s h
    simp only [reSubGo, findAllGo] at h ⊢
    rcases hf : reFind rule.pattern s with _ | bwcr
    · simp
    · obtain ⟨b, w, cap, rest⟩ := bwcr
      rw [hf] at h
      dsimp only at h ⊢
      have hs : b ++ w ++ rest = s := reFind_append hf
      have hcap : pyStrNeqOpt cap e = false := by
        by_cases hw : w.isEmpty
        · rw [if_pos hw] at h
          cases rest with
          | nil => exact h cap (by simp)
          | cons c tail => exact h cap (by simp)
        · rw [if_neg hw] at h
          exact h cap (by simp)
      have hrepl : replaceMatch rule e w cap = (w, none) := by
        simp [replaceMatch, hcap]
      by_cases hw : w.isEmpty
      · rw [if_pos hw] at h ⊢
        have hwnil : w = [] := List.isEmpty_iff.mp hw
        cases rest with
        | nil =>
          simp only [hrepl]
          subst hwnil
          simpa using hs
        | cons c tail =>
          have htail : ∀ cap2 ∈ findAllGo rule.pattern fuel tail,
              pyStrNeqOpt cap2 e = false := fun cap2 hm => h cap2 (by simp [hm])
          simp only [hrepl, ih htail]
          subst hwnil
          simpa using hs
      · rw [if_neg hw] at h ⊢
        have hrest : ∀ cap2 ∈ findAllGo rule.pattern fuel rest,
            pyStrNeqOpt cap2 e = false := fun cap2 hm => h cap2 (by simp [hm])
        simp only [hrepl, ih hrest]
        simpa using hs

theorem reSub_id_of_ruleSynced {getv : String → Option Str} {rule : Rule}
    {content : Str} (h : ruleSyncedB getv rule content = true) :
    reSub rule.pattern (replaceMatch rule (getv rule.versionKey)) content =
      (content, []) := by
  apply reSubGo_id_of_all_eq
  intro cap hm
  have := (List.all_eq_true.mp h) cap hm
  simpa using this

theorem syncFileRules_id_of_fileSynced {getv : String → Option Str}
    {rules : List Rule} {content : Str}
    (h : fileSyncedB getv rules content = true) :
    syncFileRules getv rules content = (content, []) := by
  have main : ∀ (rs : List Rule) (chs : List Change),
      (∀ r ∈ rs, ruleSyncedB getv r content = true) →
      rs.foldl
        (fun acc rule =>
          let r := reSub rule.pattern (replaceMatch rule (getv rule.versionKey)) acc.1
          (r.1, acc.2 ++ r.2))
        (content, chs) = (content, chs) := by
    intro rs
    induction rs with
    | nil => intro chs _; simp
    | cons r rs ih =>
      intro chs hall
      have hr : ruleSyncedB getv r content = true := hall r (by simp)
      simp only [List.foldl_cons, reSub_id_of_ruleSynced hr]
      simpa using ih chs (fun r2 hm => hall r2 (by simp [hm]))
  have hall : ∀ r ∈ rules, ruleSyncedB getv r content = true := by
    intro r hm
    exact (List.all_eq_true.mp h) r hm
  simpa [syncFileRules] using main rules [] hall

theorem syncOneFile_id_of_synced {dryRun : Bool} {getv : String → Option Str}
    {fs : FileSys} {entry : String × List Rule}
    (h : (match fsRead fs entry.1 with
          | none => true
          | some content => fileSyncedB getv entry.2 content) = true) :
    syncOneFile dryRun getv fs entry = (fs, []) := by
  rcases hr : fsRead fs entry.1 with _ | content
  · simp [syncOneFile, hr]
  · rw [hr] at h
    simp only [syncOneFile, hr, syncFileRules_id_of_fileSynced h]
    simp

theorem syncAllFiles_id_of_synced {dryRun : Bool} {getv : String → Option Str} :
    ∀ {table : List (String × List Rule)} {fs : FileSys},
      syncedB getv table fs = true →
      syncAllFiles dryRun getv table fs = (fs, []) := by
  intro table
  induction table with
  | nil => intro fs _; simp [syncAllFiles]
  | cons entry rest ih =>
    intro fs h
    have hall := List.all_eq_true.mp h
    have hhead := hall entry (by simp)
    have hone : syncOneFile dryRun getv fs entry = (fs, []) :=
      syncOneFile_id_of_synced (by simpa using hhead)
    have htail : syncedB getv rest fs = true := by
      apply List.all_eq_true.mpr
      intro e hm
      exact hall e (by simp [hm])
    simp [syncAllFiles, hone, ih htail]

/-- A registry giving `languages.go` the three-component value `1.21.3`. -/
def registryPatch : String → Option Str :=
  fun k => if k = "languages.go" then some "1.21.3".toList else none

/-- A registry giving `languages.go` the two-component value `1.21`. -/
def registryMinor : String → Option Str :=
  fun k => if k = "languages.go" then some "1.21".toList else none

/-- A project holding only a `go.mod` file requiring Go 1.20. -/
def goModFs : FileSys := [("go.mod", "go 1.20\n".toList)]

/-- C1 (amended): running the Reconciler twice in succession on the same
files with the same registry produces no changes on the second run —
provided the first run leaves every file synced, i.e. every match of every
rule's pattern captures exactly the registry value.  Without that proviso
the claim is false (see the counterexample): the `go.mod` rule's pattern
captures only a `major.minor` prefix while its renderer writes the full
registry value. -/
theorem C1_second_run_no_changes (getv : String → Option Str)
    (table : List (String × List Rule)) (fs : FileSys)
    (h : syncedB getv table (syncAllFiles false getv table fs).1 = true) :
    syncAllFiles false getv table (syncAllFiles false getv table fs).1 =
      ((syncAllFiles false getv table fs).1, []) :=
  syncAllFiles_id_of_synced h

theorem C1_second_run_no_changes_witness :
    syncedB registryMinor syncRulesTable
        (syncAllFiles false registryMinor syncRulesTable goModFs).1 = true ∧
    (syncAllFiles false registryMinor syncRulesTable goModFs).2 ≠ [] ∧
    syncAllFiles false registryMinor syncRulesTable
        (syncAllFiles false registryMinor syncRulesTable goModFs).1 =
      ((syncAllFiles false registryMinor syncRulesTable goModFs).1, []) :=
  ⟨by decide, by decide,
    C1_second_run_no_changes registryMinor syncRulesTable goModFs (by decide)⟩

/-- C1 counterexample: with the repository's own rule table, a registry
declaring `languages.go = 1.21.3` and a `go.mod` containing `go 1.20`, the
second Reconciler run reports changes again and rewrites the file again
(`go 1.21.3` becomes `go 1.21.3.3`). -/
theorem C1_counterexample :
    (syncAllFiles false registryPatch syncRulesTable
        (syncAllFiles false registryPatch syncRulesTable goModFs).1).2 ≠ [] ∧
    (syncAllFiles false registryPatch syncRulesTable
        (syncAllFiles false registryPatch syncRulesTable goModFs).1).1 ≠
      (syncAllFiles false registryPatch syncRulesTable goModFs).1 := by
  decide

/-- C2 counterexample: with registry value `1.21.3`, after a non-dry-run
reconciliation the `go.mod` rule's pattern captures `1.21`, not the
registry value, and a subsequent `--check` run reports an inconsistency
(so it exits non-zero). -/
theorem C2_counterexample :
    fsRead (syncAllFiles false registryPatch syncRulesTable goModFs).1 "go.mod" =
        some "go 1.21.3\n".toList ∧
    reFindAll goModPat "go 1.21.3\n".toList = ["1.21".toList] ∧
    checkConsistency registryPatch syncRulesTable
        (syncAllFiles false registryPatch syncRulesTable goModFs).1 ≠ [] := by
  decide

/-!
Dry-run analysis: `dry_run` only gates `_write_file`; the change records
are computed identically.
-/

theorem syncOneFile_dry_fs {getv : String → Option Str} {fs : FileSys}
    {entry : String × List Rule} : (syncOneFile true getv fs entry).1 = fs := by
  unfold syncOneFile
  rcases hr : fsRead fs entry.1 with _ | content
  · simp
  · by_cases hch : (syncFileRules getv entry.2 content).2.isEmpty
    · simp [hch]
    · simp [hch, writeFile]

theorem syncAllFiles_dry_fs {getv : String → Option Str} :
    ∀ {table : List (String × List Rule)} {fs : FileSys},
      (syncAllFiles true getv table fs).1 = fs := by
  intro table
  induction table with
  | nil => intro fs; simp [syncAllFiles]
  | cons entry rest ih =>
    intro fs
    show (syncAllFiles true getv rest (syncOneFile true getv fs entry).1).1 = fs
    rw [syncOneFile_dry_fs, ih]

theorem fsRead_fsWrite_ne {fs : FileSys} {p q : String} {c : Str} (h : q ≠ p) :
    fsRead (fsWrite fs p c) q = fsRead fs q := by
  induction fs with
  | nil => simp [fsWrite, fsRead]
  | cons e rest ih =>
    simp only [fsWrite, List.map_cons]
    by_cases he : e.1 = p
    · rw [if_pos he]
      show fsRead ((p, c) :: fsWrite rest p c) q = fsRead (e :: rest) q
      simp only [fsRead]
      rw [if_neg (fun hh => h hh.symm), if_neg (fun hh => h (hh.symm.trans he))]
      exact ih
    · rw [if_neg he]
      show fsRead (e :: fsWrite rest p c) q = fsRead (e :: rest) q
      simp only [fsRead]
      by_cases heq : e.1 = q
      · rw [if_pos heq, if_pos heq]
      · rw [if_neg heq, if_neg heq]
        exact ih

theorem syncOneFile_records_eq {d1 d2 : Bool} {getv : String → Option Str}
    {fs1 fs2 : FileSys} {entry : String × List Rule}
    (h : fsRead fs1 entry.1 = fsRead fs2 entry.1) :
    (syncOneFile d1 getv fs1 entry).2 = (syncOneFile d2 getv fs2 entry).2 := by
  unfold syncOneFile
  rw [h]
  rcases hr : fsRead fs2 entry.1 with _ | content
  · simp
  · by_cases hch : (syncFileRules getv entry.2 content).2.isEmpty <;> simp [hch]

theorem fsRead_syncOneFile_ne {d : Bool} {getv : String → Option Str}
    {fs : FileSys} {entry : String × List Rule} {q : String} (h : q ≠ entry.1) :
    fsRead (syncOneFile d getv fs entry).1 q = fsRead fs q := by
  unfold syncOneFile
  rcases hr : fsRead fs entry.1 with _ | content
  · simp
  · by_cases hch : (syncFileRules getv entry.2 content).2.isEmpty
    · simp [hch]
    · cases d <;> simp [hch, writeFile, fsRead_fsWrite_ne h]

theorem syncAll_records_dry_eq_real {getv : String → Option Str} :
    ∀ {table : List (String × List Rule)} {fs1 fs2 : FileSys},
      (table.map Prod.fst).Nodup →
      (∀ p ∈ table.map Prod.fst, fsRead fs1 p = fsRead fs2 p) →
      (syncAllFiles true getv table fs1).2 = (syncAllFiles false getv table fs2).2 := by
  intro table
  induction table with
  | nil => intro fs1 fs2 _ _; simp [syncAllFiles]
  | cons entry rest ih =>
    intro fs1 fs2 hnd hag
    rw [List.map_cons] at hnd
    obtain ⟨hnotmem, hnd2⟩ := List.nodup_cons.mp hnd
    have hhead : fsRead fs1 entry.1 = fsRead fs2 entry.1 := hag entry.1 (by simp)
    have hrec : (syncOneFile true getv fs1 entry).2 =
        (syncOneFile false getv fs2 entry).2 := syncOneFile_records_eq hhead
    show (syncOneFile true getv fs1 entry).2 ++
        (syncAllFiles true getv rest (syncOneFile true getv fs1 entry).1).2 =
      (syncOneFile false getv fs2 entry).2 ++
        (syncAllFiles false getv rest (syncOneFile false getv fs2 entry).1).2
    rw [hrec, syncOneFile_dry_fs]
    congr 1
    apply ih hnd2
    intro q hq
    have hqne : q ≠ entry.1 := fun hqe => hnotmem (hqe ▸ hq)
    rw [fsRead_syncOneFile_ne hqne]
    exact hag q (by simp [hq])

/-- C3: with the Reconciler's rule table (whose target paths are distinct,
as keys of a Python dict), a dry-run pass never mutates any file's content
(the file system is unchanged byte-for-byte) and reports exactly the
change records a non-dry-run pass over the same files and registry would
report. -/
theorem C3_dry_run_frame (getv : String → Option Str)
    (table : List (String × List Rule)) (fs : FileSys)
    (hnd : (table.map Prod.fst).Nodup) :
    (syncAllFiles true getv table fs).1 = fs ∧
    (syncAllFiles true getv table fs).2 = (syncAllFiles false getv table fs).2 :=
  ⟨syncAllFiles_dry_fs, syncAll_records_dry_eq_real hnd (fun _ _ => rfl)⟩

theorem C3_dry_run_frame_witness :
    (syncAllFiles true registryMinor syncRulesTable goModFs).1 = goModFs ∧
    (syncAllFiles true registryMinor syncRulesTable goModFs).2 =
      (syncAllFiles false registryMinor syncRulesTable goModFs).2 :=
  C3_dry_run_frame registryMinor syncRulesTable goModFs (by decide)

/-!
Symbolic analysis of the quoted workflow rules: on a file of the form
`go-version: '<value>'` the pattern captures exactly the value between the
quotes, for every quote-free non-empty value.
-/

/-- The tail of the quoted workflow patterns after the literal key:
`\s*['"]?([^'"]+)['"]?`. -/
def quotedTailPat : RePat :=
  [(.star .ws, false), (.opt (.oneOf quoteChars), false),
    (.plus (.noneOf quoteChars), true), (.opt (.oneOf quoteChars), false)]

/-- A `go-version` line holding a single-quoted value (also the exact text
the rule's renderer produces). -/
def quotedGoVersion (v : Str) : Str := "go-version: '".toList ++ v ++ ['\'']

theorem firstSome_cons_of_some {α β : Type} {x : α} {xs : List α}
    {f : α → Option β} {r : β} (h : f x = some r) :
    firstSome (x :: xs) f = some r := by
  simp only [firstSome, h]

theorem dropLast_cons_ne {α : Type} {a : α} {t : List α} (h : t ≠ []) :
    (a :: t).dropLast = a :: t.dropLast := by
  cases t with
  | nil => exact absurd rfl h
  | cons b ts => rfl

theorem runSplits_head {cls : CharClass} :
    ∀ {xs : Str} {y : Char} {ys : Str},
      (∀ c ∈ xs, clsMatch cls c = true) → clsMatch cls y = false →
      ∃ t, runSplits cls (xs ++ y :: ys) = (xs, y :: ys) :: t ∧ (xs ≠ [] → t ≠ []) := by
  intro xs
  induction xs with
  | nil =>
    intro y ys _ hy
    refine ⟨[], ?_, fun h => absurd rfl h⟩
    simp [runSplits, hy]
  | cons c cs ih =>
    intro y ys hall hy
    have hih : ∃ t, runSplits cls (cs ++ y :: ys) = (cs, y :: ys) :: t ∧ (cs ≠ [] → t ≠ []) :=
      ih (fun d hd => hall d (by simp [hd])) hy
    obtain ⟨t, ht, _⟩ := hih
    have hc : clsMatch cls c = true := hall c (by simp)
    refine ⟨t.map (fun q => (c :: q.1, q.2)) ++ [([], c :: (cs ++ y :: ys))], ?_, by simp⟩
    simp only [List.cons_append, runSplits, hc, if_true, List.append_eq]
    rw [ht]
    simp

theorem tryMatchT_litRun :
    ∀ (lit : Str) (p : RePat) (s : Str),
      tryMatchT ((lit.map fun c => (Item.lit c, false)) ++ p) (lit ++ s) =
        (tryMatchT p s).map fun r => (lit ++ r.1, r.2) := by
  intro lit
  induction lit with
  | nil =>
    intro p s
    rcases hr : tryMatchT p s with _ | r <;> simp [hr]
  | cons c cs ih =>
    intro p s
    show firstSome (itemSplits (Item.lit c) (c :: (cs ++ s)))
        (fun q => (tryMatchT ((cs.map fun c2 => (Item.lit c2, false)) ++ p) q.2).map
          fun r => (q.1 ++ r.1, r.2.1, r.2.2)) =
      (tryMatchT p s).map fun r => ((c :: cs) ++ r.1, r.2)
    rcases hr : tryMatchT p s with _ | r <;>
      simp [itemSplits, firstSome, ih, hr]

/-- On any text `<value>'…` with a non-empty quote-free value, the group
items `([^'"]+)` of the quoted patterns greedily capture exactly the value
up to the closing quote. -/
theorem itemSplits_plus_quoteFree {v : Str} {ys : Str} (hv : v ≠ [])
    (hq : ∀ c ∈ v, quoteChars.contains c = false) :
    ∃ t2, itemSplits (.plus (.noneOf quoteChars)) (v ++ '\'' :: ys) =
      (v, '\'' :: ys) :: t2 := by
  have hrs : ∃ t, runSplits (.noneOf quoteChars) (v ++ '\'' :: ys) =
      (v, '\'' :: ys) :: t ∧ (v ≠ [] → t ≠ []) :=
    runSplits_head (fun c hc => by simp only [clsMatch, hq c hc, Bool.not_false])
      (by decide)
  obtain ⟨t, ht, htne⟩ := hrs
  refine ⟨t.dropLast, ?_⟩
  simp only [itemSplits, ht, dropLast_cons_ne (htne hv)]

theorem tryMatchT_quotedTail {v : Str} (hv : v ≠ [])
    (hq : ∀ c ∈ v, quoteChars.contains c = false) :
    tryMatchT quotedTailPat (' ' :: '\'' :: (v ++ ['\''])) =
      some (' ' :: '\'' :: (v ++ ['\'']), v, []) := by
  have hA : tryMatchT [(Item.opt (CharClass.oneOf quoteChars), false)] ['\''] =
      some (['\''], [], []) := by decide
  have hsp0 : ∃ t2, itemSplits (.plus (.noneOf quoteChars)) (v ++ '\'' :: []) =
      (v, '\'' :: []) :: t2 := itemSplits_plus_quoteFree hv hq
  obtain ⟨t2, ht2⟩ := hsp0
  have hB : tryMatchT [(Item.plus (CharClass.noneOf quoteChars), true),
      (Item.opt (CharClass.oneOf quoteChars), false)] (v ++ ['\'']) =
      some (v ++ ['\''], v, []) := by
    show firstSome (itemSplits (Item.plus (CharClass.noneOf quoteChars)) (v ++ ['\'']))
        (fun q => (tryMatchT [(Item.opt (CharClass.oneOf quoteChars), false)] q.2).map
          fun r => (q.1 ++ r.1, q.1 ++ r.2.1, r.2.2)) =
      some (v ++ ['\''], v, [])
    rw [ht2]
    apply firstSome_cons_of_some
    show (tryMatchT [(Item.opt (CharClass.oneOf quoteChars), false)] ['\'']).map
        (fun r => (v ++ r.1, v ++ r.2.1, r.2.2)) = some (v ++ ['\''], v, [])
    rw [hA]
    simp
  have hC : tryMatchT [(Item.opt (CharClass.oneOf quoteChars), false),
      (Item.plus (CharClass.noneOf quoteChars), true),
      (Item.opt (CharClass.oneOf quoteChars), false)] ('\'' :: (v ++ ['\''])) =
      some ('\'' :: (v ++ ['\'']), v, []) := by
    have hsp : itemSplits (Item.opt (CharClass.oneOf quoteChars)) ('\'' :: (v ++ ['\''])) =
        [(['\''], v ++ ['\'']), ([], '\'' :: (v ++ ['\'']))] := by
      simp [itemSplits, clsMatch, quoteChars]
    show firstSome (itemSplits (Item.opt (CharClass.oneOf quoteChars)) ('\'' :: (v ++ ['\''])))
        (fun q => (tryMatchT [(Item.plus (CharClass.noneOf quoteChars), true),
            (Item.opt (CharClass.oneOf quoteChars), false)] q.2).map
          fun r => (q.1 ++ r.1, r.2.1, r.2.2)) =
      some ('\'' :: (v ++ ['\'']), v, [])
    rw [hsp]
    apply firstSome_cons_of_some
    show (tryMatchT [(Item.plus (CharClass.noneOf quoteChars), true),
        (Item.opt (CharClass.oneOf quoteChars), false)] (v ++ ['\''])).map
        (fun r => (['\''] ++ r.1, r.2.1, r.2.2)) = some ('\'' :: (v ++ ['\'']), v, [])
    rw [hB]
    simp
  have hsp2 : itemSplits (Item.star CharClass.ws) (' ' :: '\'' :: (v ++ ['\''])) =
      [([' '], '\'' :: (v ++ ['\''])), ([], ' ' :: '\'' :: (v ++ ['\'']))] := by
    simp [itemSplits, runSplits, clsMatch, isWsChar]
  show firstSome (itemSplits (Item.star CharClass.ws) (' ' :: '\'' :: (v ++ ['\''])))
      (fun q => (tryMatchT [(Item.opt (CharClass.oneOf quoteChars), false),
          (Item.plus (CharClass.noneOf quoteChars), true),
          (Item.opt (CharClass.oneOf quoteChars), false)] q.2).map
        fun r => (q.1 ++ r.1, r.2.1, r.2.2)) =
    some (' ' :: '\'' :: (v ++ ['\'']), v, [])
  rw [hsp2]
  apply firstSome_cons_of_some
  show (tryMatchT [(Item.opt (CharClass.oneOf quoteChars), false),
      (Item.plus (CharClass.noneOf quoteChars), true),
      (Item.opt (CharClass.oneOf quoteChars), false)] ('\'' :: (v ++ ['\'']))).map
      (fun r => ([' '] ++ r.1, r.2.1, r.2.2)) = some (' ' :: '\'' :: (v ++ ['\'']), v, [])
  rw [hC]
  simp

theorem quotedGoVersion_decomp (v : Str) :
    quotedGoVersion v = "go-version:".toList ++ (' ' :: '\'' :: (v ++ ['\''])) := by
  have h : "go-version: '".toList = "go-version:".toList ++ [' ', '\''] := by decide
  simp [quotedGoVersion, h]

theorem tryMatchT_quotedGoVersion {v : Str} (hv : v ≠ [])
    (hq : ∀ c ∈ v, quoteChars.contains c = false) :
    tryMatchT goVersionPat (quotedGoVersion v) = some (quotedGoVersion v, v, []) := by
  rw [quotedGoVersion_decomp]
  have hpat : goVersionPat =
      ("go-version:".toList.map fun c => (Item.lit c, false)) ++ quotedTailPat := rfl
  rw [hpat, tryMatchT_litRun, tryMatchT_quotedTail hv hq]
  simp

theorem reFind_of_tryMatchT {p : RePat} {s w cap rest : Str}
    (h : tryMatchT p s = some (w, cap, rest)) :
    reFind p s = some ([], w, cap, rest) := by
  cases s with
  | nil => simp [reFind, h]
  | cons c tl => simp [reFind, h]

theorem reFind_quotedGoVersion {v : Str} (hv : v ≠ [])
    (hq : ∀ c ∈ v, quoteChars.contains c = false) :
    reFind goVersionPat (quotedGoVersion v) = some ([], quotedGoVersion v, v, []) :=
  reFind_of_tryMatchT (tryMatchT_quotedGoVersion hv hq)

theorem quotedGoVersion_ne_nil (v : Str) : (quotedGoVersion v).isEmpty = false := by
  rw [quotedGoVersion_decomp]
  have h : "go-version:".toList = 'g' :: "o-version:".toList := by decide
  rw [h]
  simp

theorem findAllGo_nil {p : RePat} (h : reFind p [] = none) :
    ∀ fuel, findAllGo p fuel [] = [] := by
  intro fuel
  cases fuel with
  | zero => rfl
  | succ n => simp [findAllGo, h]

theorem reSubGo_nil {ρ : Type} {p : RePat} {f : Str → Str → Str × Option ρ}
    (h : reFind p [] = none) : ∀ fuel, reSubGo p f fuel [] = ([], []) := by
  intro fuel
  cases fuel with
  | zero => rfl
  | succ n => simp [reSubGo, h]

theorem reFind_goVersion_nil : reFind goVersionPat [] = none := by decide

theorem findAllGo_succ_of_find {p : RePat} {s b w cap rest : Str} {fuel : Nat}
    (hf : reFind p s = some (b, w, cap, rest)) (hw : w.isEmpty = false) :
    findAllGo p (fuel + 1) s = cap :: findAllGo p fuel rest := by
  simp [findAllGo, hf, hw]

theorem reSubGo_succ_of_find {ρ : Type} {p : RePat} {f : Str → Str → Str × Option ρ}
    {s b w cap rest : Str} {fuel : Nat}
    (hf : reFind p s = some (b, w, cap, rest)) (hw : w.isEmpty = false) :
    reSubGo p f (fuel + 1) s =
      (b ++ (f w cap).1 ++ (reSubGo p f fuel rest).1,
        (f w cap).2.toList ++ (reSubGo p f fuel rest).2) := by
  simp [reSubGo, hf, hw]

theorem reFindAll_quotedGoVersion {v : Str} (hv : v ≠ [])
    (hq : ∀ c ∈ v, quoteChars.contains c = false) :
    reFindAll goVersionPat (quotedGoVersion v) = [v] := by
  unfold reFindAll
  rw [findAllGo_succ_of_find (reFind_quotedGoVersion hv hq) (quotedGoVersion_ne_nil v),
    findAllGo_nil reFind_goVersion_nil]

theorem reSub_quotedGoVersion {v old : Str} (hold : old ≠ [])
    (hqold : ∀ c ∈ old, quoteChars.contains c = false) :
    reSub goVersionPat (replaceMatch goVersionRule (some v)) (quotedGoVersion old) =
      if old = v then (quotedGoVersion old, [])
      else (quotedGoVersion v,
        [⟨"languages.go", old, some v⟩]) := by
  unfold reSub
  rw [reSubGo_succ_of_find (reFind_quotedGoVersion hold hqold) (quotedGoVersion_ne_nil old),
    reSubGo_nil reFind_goVersion_nil]
  by_cases hov : old = v
  · rw [if_pos hov]
    have hneq : pyStrNeqOpt old (some v) = false := by simp [pyStrNeqOpt, hov]
    simp [replaceMatch, hneq]
  · rw [if_neg hov]
    have hneq : pyStrNeqOpt old (some v) = true := by simp [pyStrNeqOpt, hov]
    simp [replaceMatch, hneq, goVersionRule, pyInterp, quotedGoVersion]

theorem syncFileRules_quotedGoVersion {getv : String → Option Str} {v old : Str}
    (hgv : getv "languages.go" = some v) (hold : old ≠ [])
    (hqold : ∀ c ∈ old, quoteChars.contains c = false) :
    syncFileRules getv [goVersionRule] (quotedGoVersion old) =
      if old = v then (quotedGoVersion old, [])
      else (quotedGoVersion v, [⟨"languages.go", old, some v⟩]) := by
  have hstep : syncFileRules getv [goVersionRule] (quotedGoVersion old) =
      ((reSub goVersionPat (replaceMatch goVersionRule (getv "languages.go"))
          (quotedGoVersion old)).1,
        [] ++ (reSub goVersionPat (replaceMatch goVersionRule (getv "languages.go"))
          (quotedGoVersion old)).2) := rfl
  rw [hstep, hgv, reSub_quotedGoVersion hold hqold]
  by_cases hov : old = v <;> simp [hov]

/-- C2 (amended): for the quoted-style rules, here the `go-version` rule
bound to `languages.go` with registry value `v`: for every non-empty
quote-free `v` and `old`, after a non-dry-run reconciliation of a target
file reading `go-version: '<old>'`, the file reads `go-version: '<v>'`,
every match of the rule's pattern captures exactly `v`, and a subsequent
`--check` run reports no inconsistency (exit zero).  The unrestricted
claim is false for the `go.mod` rule when `v` has a third numeric
component (see the counterexample). -/
theorem C2_sync_then_check (getv : String → Option Str) (file : String)
    (v old : Str) (hgv : getv "languages.go" = some v)
    (hv : v ≠ []) (hqv : ∀ c ∈ v, quoteChars.contains c = false)
    (hold : old ≠ []) (hqold : ∀ c ∈ old, quoteChars.contains c = false) :
    fsRead (syncAllFiles false getv [(file, [goVersionRule])]
        [(file, quotedGoVersion old)]).1 file = some (quotedGoVersion v) ∧
    reFindAll goVersionPat (quotedGoVersion v) = [v] ∧
    checkConsistency getv [(file, [goVersionRule])]
      (syncAllFiles false getv [(file, [goVersionRule])]
        [(file, quotedGoVersion old)]).1 = [] := by
  have hread : fsRead [(file, quotedGoVersion old)] file = some (quotedGoVersion old) := by
    simp [fsRead]
  have hfa := reFindAll_quotedGoVersion hv hqv
  have hrun : (syncAllFiles false getv [(file, [goVersionRule])]
      [(file, quotedGoVersion old)]).1 = [(file, quotedGoVersion v)] := by
    show (syncAllFiles false getv []
        (syncOneFile false getv [(file, quotedGoVersion old)] (file, [goVersionRule])).1).1 = _
    simp only [syncAllFiles]
    unfold syncOneFile
    rw [hread]
    dsimp only
    rw [syncFileRules_quotedGoVersion hgv hold hqold]
    by_cases hov : old = v
    · rw [if_pos hov]
      simp [hov]
    · rw [if_neg hov]
      simp [writeFile, fsWrite]
  refine ⟨by rw [hrun]; simp [fsRead], hfa, ?_⟩
  rw [hrun]
  show (match fsRead [(file, quotedGoVersion v)] file with
    | none => ([] : List Inconsistency)
    | some content => checkFileRules getv file [goVersionRule] content) ++
      checkConsistency getv [] [(file, quotedGoVersion v)] = []
  have hread2 : fsRead [(file, quotedGoVersion v)] file = some (quotedGoVersion v) := by
    simp [fsRead]
  rw [hread2]
  dsimp only
  show (([] : List Inconsistency) ++
    (reFindAll goVersionRule.pattern (quotedGoVersion v)).filterMap fun cap =>
      if pyStrNeqOpt cap (getv goVersionRule.versionKey) then
        some ⟨file, goVersionRule.versionKey, cap, getv goVersionRule.versionKey⟩
      else none) ++ checkConsistency getv [] [(file, quotedGoVersion v)] = []
  have hkey : getv goVersionRule.versionKey = some v := hgv
  have hpat : goVersionRule.pattern = goVersionPat := rfl
  rw [hkey, hpat, hfa]
  simp [pyStrNeqOpt, checkConsistency]

theorem C2_sync_then_check_witness :
    registryMinor "languages.go" = some "1.21".toList ∧
    fsRead (syncAllFiles false registryMinor
        [(".github/workflows/ci.yml", [goVersionRule])]
        [(".github/workflows/ci.yml", quotedGoVersion "1.20".toList)]).1
        ".github/workflows/ci.yml" = some (quotedGoVersion "1.21".toList) ∧
    reFindAll goVersionPat (quotedGoVersion "1.21".toList) = ["1.21".toList] ∧
    checkConsistency registryMinor [(".github/workflows/ci.yml", [goVersionRule])]
      (syncAllFiles false registryMinor [(".github/workflows/ci.yml", [goVersionRule])]
        [(".github/workflows/ci.yml", quotedGoVersion "1.20".toList)]).1 = [] := by
  have h := C2_sync_then_check registryMinor ".github/workflows/ci.yml"
    "1.21".toList "1.20".toList (by decide) (by decide) (by decide) (by decide) (by decide)
  exact ⟨by decide, h.1, h.2.1, h.2.2⟩

/-!
Embedding of `version-helper.py`: the fallback line-oriented parser
(`simple_yaml_parser`), registry lookup (`get_version`) and the `get`
command of `main`.  Python dicts are modelled as association lists with
unique keys (`dictSet` updates in place or appends, `dictGet` looks up).
-/

/-- A value of the registry document: a scalar string or one nested
section of string leaves (the two shapes the fallback parser produces). -/
inductive YamlVal where
  | scalar : Str → YamlVal
  | sect : List (Str × Str) → YamlVal
deriving DecidableEq, Repr

/-- The parsed registry. -/
abbrev Registry := List (Str × YamlVal)

/-- Python dict lookup. -/
def dictGet {α : Type} : List (Str × α) → Str → Option α
  | [], _ => none
  | (k, v) :: rest, key => if k = key then some v else dictGet rest key

/-- Python dict assignment: overwrite in place or append. -/
def dictSet {α : Type} : List (Str × α) → Str → α → List (Str × α)
  | [], key, v => [(key, v)]
  | (k, w) :: rest, key, v =>
    if k = key then (key, v) :: rest else (k, w) :: dictSet rest key v

/-- Split a string at the first occurrence of a character, when present
(Python `split(sep, 1)` for the two-piece case). -/
def splitFirst (sep : Char) : Str → Option (Str × Str)
  | [] => none
  | c :: rest =>
    if c = sep then some ([], rest)
    else (splitFirst sep rest).map fun q => (c :: q.1, q.2)

/-- `get_version`: a dotted key is split on the first `.` and resolved by
a two-level lookup (absent category, non-dict category or absent subkey
all give `None`); an undotted key is a direct top-level lookup.  The
function is total: no lookup raises. -/
def get_version (versions : Registry) (key : Str) : Option YamlVal :=
  match splitFirst '.' key with
  | some (sec, subkey) =>
    match dictGet versions sec with
    | some (.sect entries) => (dictGet entries subkey).map .scalar
    | _ => none
  | none => dictGet versions key

/-- Python truthiness of the value `get_version` returns (`if version:`):
`None`, the empty string and the empty dict are falsy. -/
def pyTruthyVal : Option YamlVal → Bool
  | none => false
  | some (.scalar s) => !s.isEmpty
  | some (.sect entries) => !entries.isEmpty

/-- Outcome of the command-line `get <key>` operation. -/
inductive GetResult where
  | ok : YamlVal → GetResult
  | err : Str → GetResult
deriving DecidableEq, Repr

/-- The `get` branch of `main`: print the version when the resolved value
is truthy, otherwise log `Version not found for key: <key>` and exit 1. -/
def mainGet (versions : Registry) (key : Str) : GetResult :=
  if pyTruthyVal (get_version versions key) then
    match get_version versions key with
    | some v => .ok v
    | none => .err key
  else .err key

/-- Python `str.strip()` over the ASCII whitespace characters. -/
def stripChars (s : Str) : Str :=
  ((s.dropWhile isWsChar).reverse.dropWhile isWsChar).reverse

/-- Python `startswith` for a single character. -/
def startsWithChar (c : Char) : Str → Bool
  | [] => false
  | d :: _ => d = c

/-- Python `endswith` for a single character. -/
def endsWithChar (c : Char) (s : Str) : Bool := startsWithChar c s.reverse

/-- Python `value[1:-1]`. -/
def sliceInner (s : Str) : Str := (s.drop 1).dropLast

/-- Quote stripping of `simple_yaml_parser`: surrounding double quotes,
else surrounding single quotes, else unchanged. -/
def pyUnquote (v : Str) : Str :=
  if startsWithChar '"' v && endsWithChar '"' v then sliceInner v
  else if startsWithChar '\'' v && endsWithChar '\'' v then sliceInner v
  else v

/-- A line is indented when the original line starts with a space or tab. -/
def isIndented (original : Str) : Bool :=
  startsWithChar ' ' original || startsWithChar '\t' original

/-- `result[current_section][key] = value` (the section key is present and
holds a dict whenever the parser reaches this assignment; other shapes are
left unchanged). -/
def setInSection (res : Registry) (sec : Str) (key v : Str) : Registry :=
  res.map fun e =>
    if e.1 = sec then
      (e.1, match e.2 with
        | .sect entries => .sect (dictSet entries key v)
        | .scalar s => .scalar s)
    else e

/-- Parser state: the accumulated registry and the current section. -/
structure ParseState where
  result : Registry
  current : Option Str
deriving DecidableEq, Repr

/-- The loop body of `simple_yaml_parser` for one line. -/
def parseLine (st : ParseState) (original : Str) : ParseState :=
  let line := stripChars original
  if line.isEmpty || startsWithChar '#' line then st
  else if endsWithChar ':' line && !isIndented original then
    let sec := stripChars line.dropLast
    ⟨dictSet st.result sec (.sect []), some sec⟩
  else if line.contains ':' then
    if isIndented original then
      match st.current with
      | none => st
      | some sec =>
        match splitFirst ':' line with
        | some (k, v) =>
          ⟨setInSection st.result sec (stripChars k) (pyUnquote (stripChars v)), st.current⟩
        | none => st
    else
      match splitFirst ':' line with
      | some (k, v) =>
        ⟨dictSet st.result (stripChars k) (.scalar (pyUnquote (stripChars v))), none⟩
      | none => st
  else st

/-- Python `content.split('\n')` (keeps empty segments). -/
def splitLinesAux : Str → Str → List Str
  | [], acc => [acc.reverse]
  | c :: rest, acc =>
    if c = '\n' then acc.reverse :: splitLinesAux rest []
    else splitLinesAux rest (c :: acc)

/-- All lines of a content string. -/
def splitLines (s : Str) : List Str := splitLinesAux s []

/-- `simple_yaml_parser`: fold the line handler over the lines. -/
def simple_yaml_parse (content : Str) : Registry :=
  ((splitLines content).foldl parseLine ⟨[], none⟩).result

/-- Join lines with newlines (the inverse of `splitLines` on
newline-free lines). -/
def joinLines : List Str → Str
  | [] => []
  | [l] => l
  | l :: rest => l ++ '\n' :: joinLines rest

/-- A line that opens a section: non-blank, not a comment, ends with a
colon and is unindented. -/
def isSectionHeaderLine (original : Str) : Bool :=
  let line := stripChars original
  !line.isEmpty && !startsWithChar '#' line &&
    (endsWithChar ':' line && !isIndented original)

/-- An indented `key: value` line: non-blank, not a comment, indented and
containing a colon. -/
def isIndentedKVLine (original : Str) : Bool :=
  let line := stripChars original
  !line.isEmpty && !startsWithChar '#' line && isIndented original &&
    line.contains ':'

/-- C5: `get_version` splits a dotted key on the first `.` and performs a
two-level lookup: on `{tools: {golangci-lint: "1.2.3"}}` the key
`tools.golangci-lint` resolves to `"1.2.3"`; every dotted key whose
category is absent (or not a dict) or whose subkey is absent resolves to
`None`; the function is total, so no lookup raises. -/
theorem C5_get_version (reg : Registry) (key sec sub : Str)
    (hsplit : splitFirst '.' key = some (sec, sub))
    (habsent : ∀ entries, dictGet reg sec = some (.sect entries) →
      dictGet entries sub = none) :
    get_version [("tools".toList, .sect [("golangci-lint".toList, "1.2.3".toList)])]
        "tools.golangci-lint".toList = some (.scalar "1.2.3".toList) ∧
    get_version reg key = none := by
  refine ⟨by decide, ?_⟩
  unfold get_version
  rw [hsplit]
  dsimp only
  rcases hd : dictGet reg sec with _ | val
  · rfl
  · cases val with
    | scalar s => rfl
    | sect entries =>
      dsimp only
      rw [habsent entries hd]
      rfl

theorem C5_get_version_witness :
    splitFirst '.' "missing.key".toList = some ("missing".toList, "key".toList) ∧
    get_version [("tools".toList, .sect [("golangci-lint".toList, "1.2.3".toList)])]
        "tools.golangci-lint".toList = some (.scalar "1.2.3".toList) ∧
    get_version [("tools".toList, .sect [("golangci-lint".toList, "1.2.3".toList)])]
        "missing.key".toList = none := by
  have h := C5_get_version
    [("tools".toList, .sect [("golangci-lint".toList, "1.2.3".toList)])]
    "missing.key".toList "missing".toList "key".toList (by decide)
    (fun entries hd => by
      have hnone : dictGet
          [("tools".toList, YamlVal.sect [("golangci-lint".toList, "1.2.3".toList)])]
          "missing".toList = (none : Option YamlVal) := by decide
      rw [hnone] at hd
      simp at hd)
  exact ⟨by decide, h.1, h.2⟩

/-- C9: when `get <key>` resolves the key to the empty string, the command
takes the error path (`Version not found`, exit 1), exactly as when the
key is absent: success is decided by truthiness of the value, not by key
presence. -/
theorem C9_get_empty_exits_error (reg : Registry) (key : Str)
    (h : get_version reg key = some (.scalar [])) :
    mainGet reg key = .err key ∧
    (∀ reg2 : Registry, get_version reg2 key = none →
      mainGet reg key = mainGet reg2 key) := by
  have hm : mainGet reg key = .err key := by
    unfold mainGet
    rw [h]
    simp [pyTruthyVal]
  refine ⟨hm, fun reg2 h2 => ?_⟩
  rw [hm]
  unfold mainGet
  rw [h2]
  simp [pyTruthyVal]

theorem C9_get_empty_exits_error_witness :
    get_version [("go".toList, .scalar [])] "go".toList = some (.scalar []) ∧
    mainGet [("go".toList, .scalar [])] "go".toList = .err "go".toList ∧
    mainGet [("go".toList, .scalar [])] "go".toList = mainGet [] "go".toList :=
  ⟨by decide,
    (C9_get_empty_exits_error [("go".toList, .scalar [])] "go".toList (by decide)).1,
    (C9_get_empty_exits_error [("go".toList, .scalar [])] "go".toList (by decide)).2
      [] (by decide)⟩

theorem parseLine_current_none {st : ParseState} {L : Str}
    (hc : st.current = none) (hns : isSectionHeaderLine L = false) :
    (parseLine st L).current = none := by
  unfold parseLine
  by_cases h1 : ((stripChars L).isEmpty || startsWithChar '#' (stripChars L)) = true
  · rw [if_pos h1]
    exact hc
  · rw [if_neg h1]
    have h2 : (endsWithChar ':' (stripChars L) && !isIndented L) = false := by
      unfold isSectionHeaderLine at hns
      simp only [Bool.or_eq_true, not_or, Bool.not_eq_true] at h1
      simp only [h1.1, h1.2] at hns
      simpa using hns
    rw [if_neg (by simp [h2])]
    by_cases h3 : ((stripChars L).contains ':') = true
    · rw [if_pos h3]
      by_cases h4 : isIndented L = true
      · rw [if_pos h4, hc]
        exact hc
      · rw [if_neg h4]
        rcases hsp : splitFirst ':' (stripChars L) with _ | kv
        · exact hc
        · rfl
    · rw [if_neg h3]
      exact hc

theorem parseLine_drop {st : ParseState} {L : Str}
    (hc : st.current = none) (hkv : isIndentedKVLine L = true) :
    parseLine st L = st := by
  unfold isIndentedKVLine at hkv
  simp only [Bool.and_eq_true, Bool.not_eq_true'] at hkv
  obtain ⟨⟨⟨hne, hnc⟩, hind⟩, hcol⟩ := hkv
  unfold parseLine
  rw [if_neg (by simp [hne, hnc]), if_neg (by simp [hind]), if_pos hcol,
    if_pos hind, hc]

theorem foldl_parseLine_no_section :
    ∀ {pre : List Str} {st : ParseState}, st.current = none →
      (∀ P ∈ pre, isSectionHeaderLine P = false) →
      (pre.foldl parseLine st).current = none := by
  intro pre
  induction pre with
  | nil => intro st hc _; exact hc
  | cons P rest ih =>
    intro st hc hall
    simp only [List.foldl_cons]
    exact ih (parseLine_current_none hc (hall P (by simp)))
      (fun Q hQ => hall Q (by simp [hQ]))

theorem foldl_parseLine_drop (pre post : List Str) (L : Str)
    (hpre : ∀ P ∈ pre, isSectionHeaderLine P = false)
    (hL : isIndentedKVLine L = true) :
    (pre ++ L :: post).foldl parseLine ⟨[], none⟩ =
      (pre ++ post).foldl parseLine ⟨[], none⟩ := by
  rw [List.foldl_append, List.foldl_append, List.foldl_cons,
    parseLine_drop (foldl_parseLine_no_section rfl hpre) hL]

theorem splitLinesAux_consume {l : Str} :
    ∀ {s acc : Str}, (∀ c ∈ l, c ≠ '\n') →
      splitLinesAux (l ++ s) acc = splitLinesAux s (l.reverse ++ acc) := by
  induction l with
  | nil => intro s acc _; rfl
  | cons c cs ih =>
    intro s acc hnl
    have hc : ¬(c = '\n') := hnl c (by simp)
    show (if c = '\n' then acc.reverse :: splitLinesAux (cs ++ s) []
      else splitLinesAux (cs ++ s) (c :: acc)) = _
    rw [if_neg hc, ih (fun d hd => hnl d (by simp [hd]))]
    simp

theorem splitLines_joinLines :
    ∀ (ls : List Str), ls ≠ [] → (∀ P ∈ ls, ∀ c ∈ P, c ≠ '\n') →
      splitLines (joinLines ls) = ls := by
  intro ls
  induction ls with
  | nil => intro h _; exact absurd rfl h
  | cons l rest ih =>
    intro _ hnl
    cases rest with
    | nil =>
      show splitLines (joinLines [l]) = [l]
      have hj : joinLines [l] = l := rfl
      rw [hj]
      unfold splitLines
      have hcons : splitLinesAux (l ++ []) [] = splitLinesAux [] (l.reverse ++ []) :=
        splitLinesAux_consume (hnl l (by simp))
      simpa [splitLinesAux] using hcons
    | cons l2 rest2 =>
      have hj : joinLines (l :: l2 :: rest2) = l ++ '\n' :: joinLines (l2 :: rest2) := rfl
      show splitLines (joinLines (l :: l2 :: rest2)) = l :: l2 :: rest2
      rw [hj]
      unfold splitLines
      rw [splitLinesAux_consume (hnl l (by simp))]
      have hrec : splitLinesAux (joinLines (l2 :: rest2)) [] = l2 :: rest2 :=
        ih (by simp) (fun P hP => hnl P (by simp [hP]))
      have hstep : splitLinesAux ('\n' :: joinLines (l2 :: rest2)) (l.reverse ++ []) =
          (l.reverse ++ []).reverse :: splitLinesAux (joinLines (l2 :: rest2)) [] := rfl
      rw [hstep, hrec]
      simp

/-- C10: in the fallback parser, an indented `key: value` line appearing
before any unindented section-header line is silently dropped: the parse
of the document with the line is identical to the parse without it (so
the registry lacks the entry), and the parser is total, so it never
raises. -/
theorem C10_indented_kv_dropped (pre post : List Str) (L : Str)
    (hpre : ∀ P ∈ pre, isSectionHeaderLine P = false)
    (hL : isIndentedKVLine L = true)
    (hnl : ∀ P ∈ pre ++ L :: post, ∀ c ∈ P, c ≠ '\n')
    (hnn : pre ++ post ≠ []) :
    simple_yaml_parse (joinLines (pre ++ L :: post)) =
      simple_yaml_parse (joinLines (pre ++ post)) := by
  unfold simple_yaml_parse
  rw [splitLines_joinLines _ (by simp) hnl,
    splitLines_joinLines _ hnn (fun P hP => hnl P (by
      rcases List.mem_append.mp hP with h | h
      · exact List.mem_append.mpr (Or.inl h)
      · exact List.mem_append.mpr (Or.inr (by simp [h])))),
    foldl_parseLine_drop pre post L hpre hL]

theorem C10_indented_kv_dropped_witness :
    isIndentedKVLine "  key: value".toList = true ∧
    simple_yaml_parse (joinLines
      ["# comment".toList, "  key: value".toList, "tools:".toList, "  a: 1".toList]) =
    simple_yaml_parse (joinLines
      ["# comment".toList, "tools:".toList, "  a: 1".toList]) :=
  ⟨by decide,
    C10_indented_kv_dropped ["# comment".toList]
      ["tools:".toList, "  a: 1".toList] "  key: value".toList
      (by decide) (by decide) (by decide) (by decide)⟩

/-!
Embedding of `verify-tool-versions.py` (`ToolVersionVerifier`): version
comparison, the probe `_run_version_command` (parameterised by the outcome
of the external invocation), the verification loop and the repair filter.
-/

/-- Python `lstrip('v')`: drop every leading `v` character. -/
def lstripV (s : Str) : Str := s.dropWhile fun c => c = 'v'

/-- `ToolVersionVerifier._versions_match`: plain equality, then equality
after `lstrip('v')`, then a `dev` test (reached only after both equality
tests failed). -/
def versions_match (installed expected : Str) : Bool :=
  if installed = expected then true
  else if lstripV installed = lstripV expected then true
  else if installed = "dev".toList then false
  else false

theorem versions_match_eq (installed expected : Str) :
    versions_match installed expected =
      decide (lstripV installed = lstripV expected) := by
  unfold versions_match
  by_cases h1 : installed = expected
  · rw [if_pos h1]
    simp [h1]
  · rw [if_neg h1]
    by_cases h2 : lstripV installed = lstripV expected
    · rw [if_pos h2]
      simp [h2]
    · rw [if_neg h2]
      by_cases h3 : installed = "dev".toList
      · rw [if_pos h3]
        simp [h2]
      · rw [if_neg h3]
        simp [h2]

/-- C4 counterexample: a captured `dev` version classifies as `match`
against an expected value of `dev` — the equality tests run before the
`dev` guard, so the guard is dead code. -/
theorem C4_counterexample : versions_match "dev".toList "dev".toList = true := by
  decide

/-- C4 (amended): the comparison classifies `match` exactly when the two
versions are equal after stripping every leading `v` character from each
(so `v1.2.3` against `1.2.3` matches); a captured `dev` classifies as
`match` precisely when the expected value also strips to `dev`, and never
otherwise. -/
theorem C4_versions_match (installed expected : Str) :
    versions_match installed expected =
      decide (lstripV installed = lstripV expected) ∧
    versions_match "v1.2.3".toList "1.2.3".toList = true ∧
    (versions_match "dev".toList expected = true ↔
      lstripV expected = "dev".toList) := by
  refine ⟨versions_match_eq installed expected, by decide, ?_⟩
  rw [versions_match_eq]
  have hdev : lstripV "dev".toList = "dev".toList := by decide
  rw [hdev]
  simp [eq_comm]

/-- Outcome of one `subprocess.run` invocation. -/
inductive ProcOutcome where
  | completed : Int → Str → Str → ProcOutcome
  | timeout : ProcOutcome
  | notFound : ProcOutcome
  | procError : String → ProcOutcome
deriving DecidableEq, Repr

/-- One entry of `ToolVersionVerifier.version_commands`. -/
structure ToolConfig where
  cmd : List String
  pattern : RePat
  versionKey : String
  goPackage : Option String
  useGoVersionM : Bool
deriving DecidableEq, Repr

/-- `_run_version_command`: a total function of the invocation outcome
(and, for build-introspection tools, the `shutil.which` result) — every
failure is turned into `(None, warning)`, never an exception.  A captured
`dev`/`devel` version is returned as `dev` with a warning; otherwise the
captured group is returned with leading `v` stripped. -/
def run_version_command (toolName : String) (config : ToolConfig)
    (whichResult : Option String) (outcome : ProcOutcome) :
    Option Str × Option String :=
  if config.useGoVersionM && whichResult.isNone then
    (none, some (toolName ++ " not found in PATH"))
  else
    match outcome with
    | .completed rc out err =>
      if rc ≠ 0 then
        (none, some ("Failed to get " ++ toolName ++ " version"))
      else
        match reFind config.pattern (out ++ err) with
        | some (_, _, cap, _) =>
          if cap = "dev".toList || cap = "devel".toList then
            (some "dev".toList,
              some (toolName ++ " reports a dev version - installed from source"))
          else
            (some (lstripV cap), none)
        | none => (none, some ("Could not parse " ++ toolName ++ " version"))
    | .timeout => (none, some ("Timeout getting " ++ toolName ++ " version"))
    | .notFound => (none, some (toolName ++ " not found in PATH"))
    | .procError e => (none, some ("Error getting " ++ toolName ++ " version: " ++ e))

/-- The three-component version group `([0-9]+\.[0-9]+\.[0-9]+)`. -/
def semverGrp : RePat :=
  grp [.plus .digit, .lit '.', .plus .digit, .lit '.', .plus .digit]

/-- Pattern of `golangci-lint has version ([0-9]+\.[0-9]+\.[0-9]+)`. -/
def golangciLintProbePat : RePat := litStr "golangci-lint has version " ++ semverGrp

/-- Pattern of `gotestsum version (.+)`. -/
def gotestsumProbePat : RePat := litStr "gotestsum version " ++ grp [.plus .dot]

/-- Pattern of `Version: (.+)`. -/
def gosecProbePat : RePat := litStr "Version: " ++ grp [.plus .dot]

/-- Pattern of `govulncheck@v([0-9]+\.[0-9]+\.[0-9]+)`. -/
def govulncheckProbePat : RePat := litStr "govulncheck@v" ++ semverGrp

/-- Pattern of `v([0-9]+\.[0-9]+\.[0-9]+)`. -/
def airProbePat : RePat := litStr "v" ++ semverGrp

/-- Pattern of `Version: ([0-9]+\.[0-9]+\.[0-9]+)`. -/
def trivyProbePat : RePat := litStr "Version: " ++ semverGrp

/-- Pattern of `goose version: v([0-9]+\.[0-9]+\.[0-9]+)`. -/
def gooseProbePat : RePat := litStr "goose version: v" ++ semverGrp

/-- Pattern of `\tmod\t.*\t(v[0-9]+\.[0-9]+\.[0-9]+)`. -/
def goVersionMPat : RePat :=
  [(.lit '\t', false)] ++ litStr "mod" ++
    [(.lit '\t', false), (.star .dot, false), (.lit '\t', false)] ++
    grp [.lit 'v', .plus .digit, .lit '.', .plus .digit, .lit '.', .plus .digit]

/-- Pattern of `([0-9]+\.[0-9]+\.[0-9]+)`. -/
def codeqlProbePat : RePat := semverGrp

/-- The `version_commands` table of `ToolVersionVerifier.__init__`. -/
def versionCommandsTable : List (String × ToolConfig) :=
  [("golangci-lint", ⟨["golangci-lint", "--version"], golangciLintProbePat,
      "tools.golangci-lint",
      some "github.com/golangci/golangci-lint/cmd/golangci-lint", false⟩),
   ("gotestsum", ⟨["gotestsum", "--version"], gotestsumProbePat, "tools.gotestsum",
      some "gotest.tools/gotestsum", false⟩),
   ("gosec", ⟨["gosec", "--version"], gosecProbePat, "tools.gosec",
      some "github.com/securego/gosec/v2/cmd/gosec", false⟩),
   ("govulncheck", ⟨["govulncheck", "--version"], govulncheckProbePat,
      "tools.govulncheck", some "golang.org/x/vuln/cmd/govulncheck", false⟩),
   ("air", ⟨["air", "-v"], airProbePat, "tools.air",
      some "github.com/air-verse/air", false⟩),
   ("trivy", ⟨["trivy", "--version"], trivyProbePat, "tools.trivy", none, false⟩),
   ("goose", ⟨["goose", "--version"], gooseProbePat, "tools.goose",
      some "github.com/pressly/goose/v3/cmd/goose", false⟩),
   ("gocov", ⟨["go", "version", "-m"], goVersionMPat, "tools.gocov",
      some "github.com/axw/gocov/gocov", true⟩),
   ("gocov-html", ⟨["go", "version", "-m"], goVersionMPat, "tools.gocov-html",
      some "github.com/matm/gocov-html/cmd/gocov-html", true⟩),
   ("go-cover-treemap", ⟨["go", "version", "-m"], goVersionMPat,
      "tools.go-cover-treemap",
      some "github.com/nikolaydubina/go-cover-treemap", true⟩),
   ("codeql-cli", ⟨["codeql", "version", "--format=terse"], codeqlProbePat,
      "tools.codeql-cli", none, false⟩)]

/-- One entry of `ToolVersionVerifier.mismatches`. -/
structure MismatchRow where
  tool : String
  installed : Option Str
  expected : Option Str
  status : String
deriving DecidableEq, Repr

/-- One row of the results table (presentation strings hold `N/A` and `?`
placeholders via Python `or`, as in the source). -/
structure ResultRow where
  tool : String
  installed : Str
  expected : Str
  status : String
  warning : Option String
deriving DecidableEq, Repr

/-- Python `x or default` for an optional string. -/
def pyOrStr (x : Option Str) (dflt : Str) : Str :=
  match x with
  | some s => if s.isEmpty then dflt else s
  | none => dflt

/-- `ToolVersionVerifier.verify_tool_versions` phase 1: probe every tool
in roster order, classify each row (missing / undefined / match /
mismatch), accumulate `all_good`, `mismatches` (only missing and mismatch
rows) and one result row per tool. -/
def verify_tool_versions (env : String → Option String × ProcOutcome)
    (getv : String → Option Str) :
    List (String × ToolConfig) → Bool × List MismatchRow × List ResultRow
  | [] => (true, [], [])
  | (toolName, config) :: rest =>
    let probe := run_version_command toolName config (env toolName).1 (env toolName).2
    let expected := getv config.versionKey
    let res := verify_tool_versions env getv rest
    match probe.1 with
    | none =>
      (false, ⟨toolName, none, expected, "missing"⟩ :: res.2.1,
        ⟨toolName, pyOrStr none "N/A".toList, pyOrStr expected "?".toList,
          "Missing", probe.2⟩ :: res.2.2)
    | some iv =>
      match expected with
      | none =>
        (false, res.2.1,
          ⟨toolName, pyOrStr (some iv) "N/A".toList, pyOrStr none "?".toList,
            "Undefined", probe.2⟩ :: res.2.2)
      | some ev =>
        if versions_match iv ev then
          (res.1, res.2.1,
            ⟨toolName, pyOrStr (some iv) "N/A".toList, pyOrStr (some ev) "?".toList,
              "Match", probe.2⟩ :: res.2.2)
        else
          (false, ⟨toolName, some iv, some ev, "mismatch"⟩ :: res.2.1,
            ⟨toolName, pyOrStr (some iv) "N/A".toList, pyOrStr (some ev) "?".toList,
              "Mismatch", probe.2⟩ :: res.2.2)

/-- An install action delegated to the external installer collaborator. -/
structure InstallAction where
  tool : String
  goPackage : String
  version : Str
deriving DecidableEq, Repr

/-- Lookup in the `version_commands` dict. -/
def lookupTool : List (String × ToolConfig) → String → Option ToolConfig
  | [], _ => none
  | (k, c) :: rest, t => if k = t then some c else lookupTool rest t

/-- Python truthiness of `mismatch['expected']`. -/
def pyTruthyOptStr : Option Str → Bool
  | none => false
  | some s => !s.isEmpty

/-- The filter phase of `_fix_tool_versions`: rows classified mismatch or
missing with a truthy expected version are fixable when their tool has a
Go package, warned about when it has none; all other rows are passed over
without a message. -/
def fixFilter (commands : List (String × ToolConfig)) :
    List MismatchRow → List MismatchRow × List String
  | [] => ([], [])
  | m :: rest =>
    let r := fixFilter commands rest
    if (m.status = "mismatch" || m.status = "missing") && pyTruthyOptStr m.expected then
      match lookupTool commands m.tool with
      | some cfg =>
        match cfg.goPackage with
        | some _ => (m :: r.1, r.2)
        | none => (r.1, ("Cannot auto-install " ++ m.tool ++ " (not a Go tool)") :: r.2)
      | none => r
    else r

/-- `_fix_tool_versions`: one install action (tool, Go package, expected
version) per fixable row, plus the warnings from the filter phase. -/
def fix_tool_versions (mismatches : List MismatchRow)
    (commands : List (String × ToolConfig)) : List InstallAction × List String :=
  ((fixFilter commands mismatches).1.filterMap fun m =>
    match lookupTool commands m.tool, m.expected with
    | some cfg, some v =>
      match cfg.goPackage with
      | some pkg => some ⟨m.tool, pkg, v⟩
      | none => none
    | _, _ => none,
   (fixFilter commands mismatches).2)

theorem verify_rows_length {env : String → Option String × ProcOutcome}
    {getv : String → Option Str} :
    ∀ (commands : List (String × ToolConfig)),
      (verify_tool_versions env getv commands).2.2.length = commands.length := by
  intro commands
  induction commands with
  | nil => rfl
  | cons entry rest ih =>
    obtain ⟨tn, tc⟩ := entry
    simp only [verify_tool_versions]
    rcases (run_version_command tn tc (env tn).1 (env tn).2).1 with _ | iv
    · simp [ih]
    · rcases getv tc.versionKey with _ | ev
      · simp [ih]
      · by_cases hv : versions_match iv ev = true
        · simp [hv, ih]
        · simp [hv, ih]

/-- C6: for every tool, configuration and probe environment, each failing
outcome — binary not found (including a failed path lookup for
build-introspection tools), non-zero exit status, output not matching the
tool pattern, timeout, or any other exception — makes
`_run_version_command` return an absent version paired with a warning
string; the function is total, so it never raises to its caller, and the
verifier still emits one result row per tool, so the run continues with
the next tool. -/
theorem C6_probe_failures (toolName : String) (config : ToolConfig)
    (which : Option String) (outcome : ProcOutcome)
    (h : (config.useGoVersionM = true ∧ which = none) ∨
      outcome = .timeout ∨ outcome = .notFound ∨
      (∃ e, outcome = .procError e) ∨
      (∃ rc out err, outcome = .completed rc out err ∧
        (rc ≠ 0 ∨ reFind config.pattern (out ++ err) = none))) :
    (run_version_command toolName config which outcome).1 = none ∧
    (run_version_command toolName config which outcome).2.isSome = true ∧
    ∀ (env : String → Option String × ProcOutcome) (getv : String → Option Str)
      (commands : List (String × ToolConfig)),
      (verify_tool_versions env getv commands).2.2.length = commands.length := by
  have main : (run_version_command toolName config which outcome).1 = none ∧
      (run_version_command toolName config which outcome).2.isSome = true := by
    unfold run_version_command
    by_cases hw : (config.useGoVersionM && which.isNone) = true
    · rw [if_pos hw]
      exact ⟨rfl, rfl⟩
    · rw [if_neg hw]
      rcases h with ⟨h1, h2⟩ | h | h | ⟨e, h⟩ | ⟨rc, out, err, h, hfail⟩
      · exact absurd (by simp [h1, h2]) hw
      · subst h; exact ⟨rfl, rfl⟩
      · subst h; exact ⟨rfl, rfl⟩
      · subst h; exact ⟨rfl, rfl⟩
      · subst h
        dsimp only
        rcases hfail with hrc | hfind
        · rw [if_pos hrc]
          exact ⟨rfl, rfl⟩
        · by_cases hrc : rc ≠ 0
          · rw [if_pos hrc]
            exact ⟨rfl, rfl⟩
          · rw [if_neg hrc, hfind]
            exact ⟨rfl, rfl⟩
  exact ⟨main.1, main.2, fun env getv commands => verify_rows_length commands⟩

theorem C6_probe_failures_witness :
    (run_version_command "golangci-lint"
      ⟨["golangci-lint", "--version"], golangciLintProbePat, "tools.golangci-lint",
        some "github.com/golangci/golangci-lint/cmd/golangci-lint", false⟩
      none .timeout).1 = none ∧
    (run_version_command "golangci-lint"
      ⟨["golangci-lint", "--version"], golangciLintProbePat, "tools.golangci-lint",
        some "github.com/golangci/golangci-lint/cmd/golangci-lint", false⟩
      none .timeout).2.isSome = true ∧
    (verify_tool_versions (fun _ => (none, .timeout)) (fun _ => none)
      versionCommandsTable).2.2.length = versionCommandsTable.length := by
  have h := C6_probe_failures "golangci-lint"
    ⟨["golangci-lint", "--version"], golangciLintProbePat, "tools.golangci-lint",
      some "github.com/golangci/golangci-lint/cmd/golangci-lint", false⟩
    none .timeout (Or.inr (Or.inl rfl))
  exact ⟨h.1, h.2.1, h.2.2 _ _ _⟩

theorem fixFilter_mem {commands : List (String × ToolConfig)} {cfg : ToolConfig} :
    ∀ {ms : List MismatchRow} {m : MismatchRow}, m ∈ ms →
      ((m.status = "mismatch" || m.status = "missing") &&
        pyTruthyOptStr m.expected) = true →
      lookupTool commands m.tool = some cfg →
      ((∀ pkg, cfg.goPackage = some pkg → m ∈ (fixFilter commands ms).1) ∧
       (cfg.goPackage = none →
         ("Cannot auto-install " ++ m.tool ++ " (not a Go tool)") ∈
           (fixFilter commands ms).2)) := by
  intro ms
  induction ms with
  | nil => intro m hm; simp at hm
  | cons m0 rest ih =>
    intro m hm hcond hlk
    have hsub : (∀ x ∈ (fixFilter commands rest).1,
        x ∈ (fixFilter commands (m0 :: rest)).1) ∧
        (∀ s ∈ (fixFilter commands rest).2,
          s ∈ (fixFilter commands (m0 :: rest)).2) := by
      simp only [fixFilter]
      by_cases hc : ((m0.status = "mismatch" || m0.status = "missing") &&
          pyTruthyOptStr m0.expected) = true
      · rw [if_pos hc]
        rcases lookupTool commands m0.tool with _ | cfg0
        · exact ⟨fun x hx => hx, fun s hs => hs⟩
        · dsimp only
          rcases cfg0.goPackage with _ | pkg0
          · exact ⟨fun x hx => hx, fun s hs => by simp [hs]⟩
          · exact ⟨fun x hx => by simp [hx], fun s hs => hs⟩
      · rw [if_neg hc]
        exact ⟨fun x hx => hx, fun s hs => hs⟩
    rcases List.mem_cons.mp hm with rfl | hmem
    · constructor
      · intro pkg hpkg
        show m ∈ (fixFilter commands (m :: rest)).1
        simp only [fixFilter]
        rw [if_pos hcond, hlk]
        dsimp only
        rw [hpkg]
        exact List.mem_cons_self _ _
      · intro hnone
        show _ ∈ (fixFilter commands (m :: rest)).2
        simp only [fixFilter]
        rw [if_pos hcond, hlk]
        dsimp only
        rw [hnone]
        exact List.mem_cons_self _ _
    · obtain ⟨hfix, hwarn⟩ := ih hmem hcond hlk
      exact ⟨fun pkg hpkg => hsub.1 _ (hfix pkg hpkg),
        fun hnone => hsub.2 _ (hwarn hnone)⟩

theorem fixFilter_fst_subset {commands : List (String × ToolConfig)} :
    ∀ {ms : List MismatchRow} {m : MismatchRow},
      m ∈ (fixFilter commands ms).1 → m ∈ ms := by
  intro ms
  induction ms with
  | nil => intro m hm; simp [fixFilter] at hm
  | cons m0 rest ih =>
    intro m hm
    simp only [fixFilter] at hm
    by_cases hc : ((m0.status = "mismatch" || m0.status = "missing") &&
        pyTruthyOptStr m0.expected) = true
    · rw [if_pos hc] at hm
      rcases hlk0 : lookupTool commands m0.tool with _ | cfg0
      · rw [hlk0] at hm
        exact List.mem_cons.mpr (Or.inr (ih hm))
      · rw [hlk0] at hm
        dsimp only at hm
        rcases hpk0 : cfg0.goPackage with _ | pkg0
        · rw [hpk0] at hm
          exact List.mem_cons.mpr (Or.inr (ih hm))
        · rw [hpk0] at hm
          rcases List.mem_cons.mp hm with rfl | hmem
          · exact List.mem_cons_self _ _
          · exact List.mem_cons.mpr (Or.inr (ih hmem))
    · rw [if_neg hc] at hm
      exact List.mem_cons.mpr (Or.inr (ih hm))

/-- C7 counterexample: a row classified `missing` whose tool has an
installer-package identifier but whose expected version is absent is
skipped silently by repair mode: no install action, no message. -/
theorem C7_counterexample :
    fix_tool_versions [⟨"golangci-lint", none, none, "missing"⟩]
      versionCommandsTable = ([], []) ∧
    ((lookupTool versionCommandsTable "golangci-lint").map ToolConfig.goPackage) =
      some (some "github.com/golangci/golangci-lint/cmd/golangci-lint") := by
  decide

/-- C7 (amended): in repair mode, every row classified `mismatch` or
`missing` whose expected version is present and non-empty is handled:
with an installer-package identifier the install action
(tool, package, expected version) is invoked, without one a
cannot-auto-fix message is emitted.  Rows whose expected version is
absent or empty are skipped silently, which the unrestricted claim
forbids (see the counterexample). -/
theorem C7_fix_rows (mismatches : List MismatchRow)
    (commands : List (String × ToolConfig)) (m : MismatchRow) (cfg : ToolConfig)
    (v : Str) (hm : m ∈ mismatches)
    (hst : m.status = "mismatch" ∨ m.status = "missing")
    (hexp : m.expected = some v) (hv : v ≠ [])
    (hlk : lookupTool commands m.tool = some cfg) :
    (∀ pkg, cfg.goPackage = some pkg →
      (⟨m.tool, pkg, v⟩ : InstallAction) ∈ (fix_tool_versions mismatches commands).1) ∧
    (cfg.goPackage = none →
      ("Cannot auto-install " ++ m.tool ++ " (not a Go tool)") ∈
        (fix_tool_versions mismatches commands).2) := by
  have hcond : ((m.status = "mismatch" || m.status = "missing") &&
      pyTruthyOptStr m.expected) = true := by
    rcases hst with h | h <;> simp [h, pyTruthyOptStr, hexp, hv]
  have hf := fixFilter_mem hm hcond hlk
  constructor
  · intro pkg hpkg
    have hmem := hf.1 pkg hpkg
    apply List.mem_filterMap.mpr
    refine ⟨m, hmem, ?_⟩
    rw [hlk, hexp]
    dsimp only
    rw [hpkg]
  · intro hnone
    exact hf.2 hnone

theorem C7_fix_rows_witness :
    (⟨"golangci-lint", "github.com/golangci/golangci-lint/cmd/golangci-lint",
        "1.2.3".toList⟩ : InstallAction) ∈
      (fix_tool_versions [⟨"golangci-lint", none, some "1.2.3".toList, "missing"⟩]
        versionCommandsTable).1 := by
  have h := C7_fix_rows [⟨"golangci-lint", none, some "1.2.3".toList, "missing"⟩]
    versionCommandsTable ⟨"golangci-lint", none, some "1.2.3".toList, "missing"⟩
    ⟨["golangci-lint", "--version"], golangciLintProbePat, "tools.golangci-lint",
      some "github.com/golangci/golangci-lint/cmd/golangci-lint", false⟩
    "1.2.3".toList (by simp) (Or.inr rfl) rfl (by decide) (by decide)
  exact h.1 "github.com/golangci/golangci-lint/cmd/golangci-lint" rfl

theorem verify_allGood_false {env : String → Option String × ProcOutcome}
    {getv : String → Option Str} :
    ∀ {commands : List (String × ToolConfig)} {tool : String} {cfg : ToolConfig},
      (tool, cfg) ∈ commands →
      (run_version_command tool cfg (env tool).1 (env tool).2).1.isSome = true →
      getv cfg.versionKey = none →
      (verify_tool_versions env getv commands).1 = false := by
  intro commands
  induction commands with
  | nil => intro tool cfg hm _ _; simp at hm
  | cons entry rest ih =>
    intro tool cfg hm hp hg
    obtain ⟨tn, tc⟩ := entry
    rcases List.mem_cons.mp hm with heq | hmem
    · cases heq
      simp only [verify_tool_versions]
      obtain ⟨iv, hiv⟩ := Option.isSome_iff_exists.mp hp
      rw [hiv, hg]
    · have hres := ih hmem hp hg
      simp only [verify_tool_versions]
      rcases hp0 : (run_version_command tn tc (env tn).1 (env tn).2).1 with _ | iv0
      · rfl
      · rcases hg0 : getv tc.versionKey with _ | ev0
        · rfl
        · dsimp only
          by_cases hvm : versions_match iv0 ev0 = true
          · rw [if_pos hvm]
            exact hres
          · rw [if_neg hvm]

theorem verify_mismatch_tools {env : String → Option String × ProcOutcome}
    {getv : String → Option Str} :
    ∀ {commands : List (String × ToolConfig)} {m : MismatchRow},
      m ∈ (verify_tool_versions env getv commands).2.1 →
      ∃ cfg, (m.tool, cfg) ∈ commands ∧
        ((run_version_command m.tool cfg (env m.tool).1 (env m.tool).2).1 = none ∨
          (getv cfg.versionKey).isSome = true) := by
  intro commands
  induction commands with
  | nil => intro m hm; simp [verify_tool_versions] at hm
  | cons entry rest ih =>
    intro m hm
    obtain ⟨tn, tc⟩ := entry
    simp only [verify_tool_versions] at hm
    rcases hp0 : (run_version_command tn tc (env tn).1 (env tn).2).1 with _ | iv0
    · rw [hp0] at hm
      rcases List.mem_cons.mp hm with rfl | hmem
      · exact ⟨tc, by simp, Or.inl hp0⟩
      · obtain ⟨cfg, hc1, hc2⟩ := ih hmem
        exact ⟨cfg, by simp [hc1], hc2⟩
    · rw [hp0] at hm
      rcases hg0 : getv tc.versionKey with _ | ev0
      · rw [hg0] at hm
        dsimp only at hm
        obtain ⟨cfg, hc1, hc2⟩ := ih hm
        exact ⟨cfg, by simp [hc1], hc2⟩
      · rw [hg0] at hm
        dsimp only at hm
        by_cases hvm : versions_match iv0 ev0 = true
        · rw [if_pos hvm] at hm
          obtain ⟨cfg, hc1, hc2⟩ := ih hm
          exact ⟨cfg, by simp [hc1], hc2⟩
        · rw [if_neg hvm] at hm
          rcases List.mem_cons.mp hm with rfl | hmem
          · exact ⟨tc, by simp, Or.inr (by simp [hg0])⟩
          · obtain ⟨cfg, hc1, hc2⟩ := ih hmem
            exact ⟨cfg, by simp [hc1], hc2⟩

theorem fix_installs_tools {mismatches : List MismatchRow}
    {commands : List (String × ToolConfig)} {a : InstallAction}
    (ha : a ∈ (fix_tool_versions mismatches commands).1) :
    ∃ m ∈ mismatches, m.tool = a.tool := by
  obtain ⟨m, hmem, hsome⟩ := List.mem_filterMap.mp ha
  refine ⟨m, fixFilter_fst_subset hmem, ?_⟩
  rcases hlk : lookupTool commands m.tool with _ | cfg
  · rw [hlk] at hsome
    simp at hsome
  · rw [hlk] at hsome
    rcases hexp : m.expected with _ | v
    · rw [hexp] at hsome
      simp at hsome
    · rw [hexp] at hsome
      dsimp only at hsome
      rcases hpkg : cfg.goPackage with _ | pkg
      · rw [hpkg] at hsome
        simp at hsome
      · rw [hpkg] at hsome
        simp only [Option.some.injEq] at hsome
        rw [← hsome]

/-- C8: a tool whose probe succeeds but whose registry key has no value is
classified Undefined: it forces `all_good` to false, yet it is never
appended to `mismatches` — so it is excluded from the reported mismatch
count and repair mode never attempts to install it. -/
theorem C8_undefined_excluded (commands : List (String × ToolConfig))
    (env : String → Option String × ProcOutcome) (getv : String → Option Str)
    (tool : String) (cfg : ToolConfig) (hmem : (tool, cfg) ∈ commands)
    (hall : ∀ cfg2, (tool, cfg2) ∈ commands →
      (run_version_command tool cfg2 (env tool).1 (env tool).2).1.isSome = true ∧
      getv cfg2.versionKey = none) :
    (verify_tool_versions env getv commands).1 = false ∧
    (∀ m ∈ (verify_tool_versions env getv commands).2.1, m.tool ≠ tool) ∧
    (∀ a ∈ (fix_tool_versions (verify_tool_versions env getv commands).2.1 commands).1,
      a.tool ≠ tool) := by
  have h1 : (verify_tool_versions env getv commands).1 = false :=
    verify_allGood_false hmem (hall cfg hmem).1 (hall cfg hmem).2
  have h2 : ∀ m ∈ (verify_tool_versions env getv commands).2.1, m.tool ≠ tool := by
    intro m hm heq
    obtain ⟨cfg2, hc1, hc2⟩ := verify_mismatch_tools hm
    rw [heq] at hc1 hc2
    obtain ⟨hsome, hnone⟩ := hall cfg2 hc1
    rcases hc2 with hc2 | hc2
    · rw [hc2] at hsome
      simp at hsome
    · rw [hnone] at hc2
      simp at hc2
  refine ⟨h1, h2, ?_⟩
  intro a ha heq
  obtain ⟨m, hm, hmt⟩ := fix_installs_tools ha
  exact h2 m hm (hmt.trans heq)

theorem C8_undefined_excluded_witness :
    (verify_tool_versions
      (fun _ => (none, .completed 0 "golangci-lint has version 1.2.3".toList []))
      (fun _ => none)
      [("golangci-lint",
        ⟨["golangci-lint", "--version"], golangciLintProbePat, "tools.golangci-lint",
          some "github.com/golangci/golangci-lint/cmd/golangci-lint", false⟩)]).1 =
      false := by
  have h := C8_undefined_excluded
    [("golangci-lint",
      ⟨["golangci-lint", "--version"], golangciLintProbePat, "tools.golangci-lint",
        some "github.com/golangci/golangci-lint/cmd/golangci-lint", false⟩)]
    (fun _ => (none, .completed 0 "golangci-lint has version 1.2.3".toList []))
    (fun _ => none) "golangci-lint"
    ⟨["golangci-lint", "--version"], golangciLintProbePat, "tools.golangci-lint",
      some "github.com/golangci/golangci-lint/cmd/golangci-lint", false⟩
    (by simp)
    (fun cfg2 hm2 => by
      simp only [List.mem_singleton, Prod.mk.injEq] at hm2
      rw [hm2.2]
      exact ⟨by decide, rfl⟩)
  exact h.1
